import Mathlib

/-!
Verification development for a small to-do list manager (Rust, `src/main.rs`)
with flat-file CSV persistence.

Strings are modelled as `List Char`.  The embedding covers:
* Rust `str::trim` (Unicode `White_Space`),
* the `csv` crate writer (`QuoteStyle::Necessary`, delimiter `,`, quote `"`,
  terminator `\n`, headers disabled) used by `save_todos`,
* the `csv` crate reader (terminator CRLF-tolerant, quoting with doubled
  quotes, blank lines skipped, non-flexible record lengths checked against
  the first record, per-record deserialization errors skipped) used in
  `ProductivityApp::new`,
* the application state (`ProductivityApp`) and its message handler
  `update`, where the returned `Bool` records whether `save_todos` was
  invoked by that message.
-/

/-- One to-do entry (`TodoItem` in the source). -/
structure TodoItem where
  description : List Char
  completed : Bool
  category : List Char
deriving DecidableEq, Repr

/-- Unicode `White_Space` property, the character class removed by Rust's
`str::trim`. -/
def isRustWhitespace (c : Char) : Bool :=
  let n := c.toNat
  (0x09 ≤ n && n ≤ 0x0D) || n == 0x20 || n == 0x85 || n == 0xA0 ||
    n == 0x1680 || (0x2000 ≤ n && n ≤ 0x200A) || n == 0x2028 || n == 0x2029 ||
    n == 0x202F || n == 0x205F || n == 0x3000

/-- Rust `str::trim`: drop leading and trailing whitespace. -/
def trim (s : List Char) : List Char :=
  ((s.dropWhile isRustWhitespace).reverse.dropWhile isRustWhitespace).reverse

/-! ### CSV writer model (`save_todos`) -/

/-- `QuoteStyle::Necessary`: a field is quoted iff it contains the delimiter,
the quote character, or a line break (csv-core marks both `\r` and `\n` as
requiring quotes when the terminator is `\n`). -/
def needsQuoting (f : List Char) : Bool :=
  f.any fun c => c == ',' || c == '"' || c == '\n' || c == '\r'

/-- Double every quote character (the csv writer's `double_quote` escaping). -/
def escapeQuotes : List Char → List Char
  | [] => []
  | c :: cs => if c = '"' then '"' :: '"' :: escapeQuotes cs else c :: escapeQuotes cs

/-- Serialize one field, quoting it only when necessary. -/
def renderField (f : List Char) : List Char :=
  if needsQuoting f then '"' :: (escapeQuotes f ++ ['"']) else f

/-- serde serializes `bool` as the literal tokens `true` / `false`. -/
def boolField (b : Bool) : List Char :=
  if b then "true".toList else "false".toList

/-- One CSV line for a record: three fields joined by `,`, ended by `\n`. -/
def renderRecord (t : TodoItem) : List Char :=
  renderField t.description ++ ',' :: renderField (boolField t.completed) ++
    ',' :: renderField t.category ++ ['\n']

/-- `save_todos`: the byte content written to the (truncated) file. -/
def saveTodos (todos : List TodoItem) : List Char :=
  (todos.map renderRecord).flatten

/-! ### CSV reader model -/

/-- Parser states of the csv-core reader automaton. -/
inductive CsvState where
  | startRecord
  | startField
  | inField
  | inQuoted
  | quoteInQuoted
deriving DecidableEq, Repr

/-- The csv-core reader automaton: `csvRun input state curField curRecord`
returns the raw records (lists of fields) found in `input`, starting in
`state` with partially accumulated field `curField` and record `curRecord`.
Terminators `\n`, `\r` and `\r\n` all end a record; blank lines are skipped
(hence the `\n` of a `\r\n` pair, read back at record start, is consumed as a
blank line, which is observably the same as consuming it with the `\r`);
a quote opens a quoted field only at field start; inside a quoted field a
doubled quote is a literal quote; input ending mid-record emits the record. -/
def csvRun : List Char → CsvState → List Char → List (List Char) → List (List (List Char))
  | [], .startRecord, _, _ => []
  | [], _, f, r => [r ++ [f]]
  | c :: cs, .startRecord, _, _ =>
    if c = '\n' then csvRun cs .startRecord [] []
    else if c = '\r' then csvRun cs .startRecord [] []
    else if c = '"' then csvRun cs .inQuoted [] []
    else if c = ',' then csvRun cs .startField [] [[]]
    else csvRun cs .inField [c] []
  | c :: cs, .startField, f, r =>
    if c = '\n' then (r ++ [f]) :: csvRun cs .startRecord [] []
    else if c = '\r' then (r ++ [f]) :: csvRun cs .startRecord [] []
    else if c = '"' then csvRun cs .inQuoted f r
    else if c = ',' then csvRun cs .startField [] (r ++ [f])
    else csvRun cs .inField (f ++ [c]) r
  | c :: cs, .inField, f, r =>
    if c = '\n' then (r ++ [f]) :: csvRun cs .startRecord [] []
    else if c = '\r' then (r ++ [f]) :: csvRun cs .startRecord [] []
    else if c = ',' then csvRun cs .startField [] (r ++ [f])
    else csvRun cs .inField (f ++ [c]) r
  | c :: cs, .inQuoted, f, r =>
    if c = '"' then csvRun cs .quoteInQuoted f r
    else csvRun cs .inQuoted (f ++ [c]) r
  | c :: cs, .quoteInQuoted, f, r =>
    if c = '"' then csvRun cs .inQuoted (f ++ ['"']) r
    else if c = '\n' then (r ++ [f]) :: csvRun cs .startRecord [] []
    else if c = '\r' then (r ++ [f]) :: csvRun cs .startRecord [] []
    else if c = ',' then csvRun cs .startField [] (r ++ [f])
    else csvRun cs .inField (f ++ [c]) r

/-- All raw CSV records of a file content. -/
def parseRecords (content : List Char) : List (List (List Char)) :=
  csvRun content .startRecord [] []

/-- serde deserialization of one raw record into a `TodoItem`: exactly three
fields, the second being the literal token `true` or `false`. -/
def recordToTodo : List (List Char) → Option TodoItem
  | [d, b, cat] =>
    if b = "true".toList then some ⟨d, true, cat⟩
    else if b = "false".toList then some ⟨d, false, cat⟩
    else none
  | _ => none

/-- The deserialization loop of `ProductivityApp::new`: iterate over records,
keeping the successfully deserialized ones.  The reader is non-flexible: the
expected field count is fixed by the first record, and a record with a
different field count yields `Err(UnequalLengths)` and is skipped. -/
def loadLoop : Option Nat → List (List (List Char)) → List TodoItem
  | _, [] => []
  | expected, r :: rs =>
    let exp := expected.getD r.length
    if r.length = exp then
      match recordToTodo r with
      | some t => t :: loadLoop (some exp) rs
      | none => loadLoop (some exp) rs
    else loadLoop (some exp) rs

/-- Loading in `ProductivityApp::new`: `none` models a file that failed to
open (missing), `some content` an existing file with the given content. -/
def loadTodos : Option (List Char) → List TodoItem
  | none => []
  | some content => loadLoop none (parseRecords content)

/-! ### Lexicographic string order (Rust `Ord` for `String`) -/

/-- Rust's `String` comparison (`a.cmp(&b)` is `Less` or `Equal`):
lexicographic order on the character sequences. -/
def strLe : List Char → List Char → Bool
  | [], _ => true
  | _ :: _, [] => false
  | a :: as, b :: bs => if a < b then true else if b < a then false else strLe as bs

/-- Comparator of `Message::SortByCategory`: `a.category.cmp(&b.category)`. -/
def catLe (a b : TodoItem) : Prop := strLe a.category b.category = true

instance : DecidableRel catLe := fun a b => by unfold catLe; infer_instance

/-- The order used to sort the category list (`cats.sort()`). -/
def lexLe (a b : List Char) : Prop := strLe a b = true

instance : DecidableRel lexLe := fun a b => by unfold lexLe; infer_instance

/-- Helper for `dedupAdj`: drop elements equal to the previously kept
element `prev`, keeping the first element of each new run. -/
def dedupLoop {α : Type} [DecidableEq α] (prev : α) : List α → List α
  | [] => []
  | b :: t => if b = prev then dedupLoop prev t else b :: dedupLoop b t

/-- Rust `Vec::dedup`: remove consecutive repeated elements, keeping the
first of each run. -/
def dedupAdj {α : Type} [DecidableEq α] : List α → List α
  | [] => []
  | a :: t => a :: dedupLoop a t

/-! ### The application model -/

/-- The UI messages of the source (`FilterCategoryChanged` carries the
`Option<String>` payload of `FilterCategory`). -/
inductive Message where
  | TodoInputChanged (input : List Char)
  | CategoryInputChanged (input : List Char)
  | AddTodo
  | ToggleTodoCompleted (idx : Nat)
  | ToggleShowCompleted
  | SortByCategory
  | FilterCategoryChanged (cat : Option (List Char))
deriving DecidableEq, Repr

/-- The application state (`struct ProductivityApp`). -/
structure ProductivityApp where
  todo_input : List Char
  category_input : List Char
  todos : List TodoItem
  show_completed : Bool
  sort_by_category : Bool
  filter_category : Option (List Char)
deriving DecidableEq, Repr

/-- `ProductivityApp::categories`: the record categories, plus the pending
`category_input` when its trim is non-empty and it is not already present,
then `sort()` and `dedup()`. -/
def ProductivityApp.categories (s : ProductivityApp) : List (List Char) :=
  let cats := s.todos.map fun t => t.category
  let cats :=
    if !(trim s.category_input).isEmpty && !(cats.contains s.category_input) then
      cats ++ [s.category_input]
    else cats
  dedupAdj (List.insertionSort lexLe cats)

/-- `ProductivityApp::update`.  The second component records whether this
message invoked `save_todos` (a file write). -/
def ProductivityApp.update (s : ProductivityApp) (m : Message) : ProductivityApp × Bool :=
  match m with
  | .TodoInputChanged input => ({ s with todo_input := input }, false)
  | .CategoryInputChanged input => ({ s with category_input := input }, false)
  | .AddTodo =>
    if (trim s.todo_input).isEmpty then (s, false)
    else
      ({ s with
          todos := s.todos ++
            [{ description := trim s.todo_input, completed := false,
               category := trim s.category_input }],
          todo_input := [], category_input := [] }, true)
  | .ToggleTodoCompleted idx =>
    match s.todos[idx]? with
    | some t =>
      ({ s with todos := s.todos.set idx { t with completed := !t.completed } }, true)
    | none => (s, false)
  | .ToggleShowCompleted => ({ s with show_completed := !s.show_completed }, false)
  | .SortByCategory =>
    if !s.sort_by_category then
      ({ s with sort_by_category := !s.sort_by_category,
                todos := List.insertionSort catLe s.todos }, false)
    else ({ s with sort_by_category := !s.sort_by_category }, false)
  | .FilterCategoryChanged cat => ({ s with filter_category := cat }, false)

/-- The filtered iterator built in `ProductivityApp::view`:
`self.todos.iter().enumerate()` filtered by completion visibility and then
by the category filter. -/
def ProductivityApp.filteredView (s : ProductivityApp) : List (Nat × TodoItem) :=
  (s.todos.enum.filter fun p => s.show_completed || !p.2.completed).filter
    fun p =>
      match s.filter_category with
      | some cat => decide (p.2.category = cat)
      | none => true

/-- `ProductivityApp::new`: the initial state, with todos loaded from the
persisted file. -/
def initState (file : Option (List Char)) : ProductivityApp :=
  { todo_input := [], category_input := [], todos := loadTodos file,
    show_completed := false, sort_by_category := false, filter_category := none }

/-- Run a sequence of UI messages from a state. -/
def runMsgs (msgs : List Message) (s : ProductivityApp) : ProductivityApp :=
  msgs.foldl (fun st m => (st.update m).1) s

/-- Well-formed record per the spec: trimmed, non-empty description. -/
def WellFormed (t : TodoItem) : Prop :=
  trim t.description = t.description ∧ t.description ≠ []

instance : DecidablePred WellFormed := fun t => by unfold WellFormed; infer_instance

/-! ### Sample data used in witnesses -/

def exTodo1 : TodoItem := ⟨"Buy milk".toList, false, "Errands".toList⟩

def exTodo2 : TodoItem := ⟨"Pay bill".toList, true, "Finance".toList⟩

def exStore : ProductivityApp :=
  { todo_input := [], category_input := [], todos := [exTodo1, exTodo2],
    show_completed := false, sort_by_category := false, filter_category := none }

/-! ### C2: add appends one trimmed record and persists -/

/-- C2: whenever the pending description has a non-empty trim, `AddTodo`
appends exactly one record (trimmed description, `completed = false`) at the
end of the sequence, leaving all pre-existing records unchanged, and writes
the file. -/
theorem addTodo_appends (s : ProductivityApp) (h : trim s.todo_input ≠ []) :
    (s.update Message.AddTodo).1.todos =
      s.todos ++ [{ description := trim s.todo_input, completed := false,
                    category := trim s.category_input }] ∧
    (s.update Message.AddTodo).2 = true := by
  have hne : (trim s.todo_input).isEmpty = false := by
    cases hc : trim s.todo_input with
    | nil => exact absurd hc h
    | cons a l => rfl
  simp [ProductivityApp.update, hne]

theorem addTodo_appends_witness :
    trim "  Buy milk ".toList ≠ [] ∧
    (({ exStore with todo_input := "  Buy milk ".toList,
                     category_input := " Errands ".toList }).update Message.AddTodo).1.todos =
      [exTodo1, exTodo2] ++
        [{ description := trim "  Buy milk ".toList, completed := false,
           category := trim " Errands ".toList }] ∧
    (({ exStore with todo_input := "  Buy milk ".toList,
                     category_input := " Errands ".toList }).update Message.AddTodo).2 = true :=
  ⟨by decide, addTodo_appends _ (by decide)⟩

/-! ### C6: whitespace-only input is a silent no-op without a file write -/

/-- C6: when the pending description trims to empty (whitespace only),
`AddTodo` leaves the whole state unchanged and does not write the file. -/
theorem addTodo_whitespace_noop (s : ProductivityApp) (h : trim s.todo_input = []) :
    s.update Message.AddTodo = (s, false) := by
  simp [ProductivityApp.update, h]

theorem addTodo_whitespace_noop_witness :
    trim "  ".toList = [] ∧
    ({ exStore with todo_input := "  ".toList,
                    category_input := "Work".toList }).update Message.AddTodo =
      ({ exStore with todo_input := "  ".toList, category_input := "Work".toList }, false) :=
  ⟨by decide, addTodo_whitespace_noop _ (by decide)⟩

/-! ### C10: triggering sort with the flag already on changes nothing -/

/-- C10: when `sort_by_category` is already on, `Message::SortByCategory`
only turns the flag off; the task sequence is left exactly unchanged (the
original insertion order is not restored), and no file is written. -/
theorem sortToggle_on_noop (s : ProductivityApp) (h : s.sort_by_category = true) :
    (s.update Message.SortByCategory).1.todos = s.todos ∧
    (s.update Message.SortByCategory).1.sort_by_category = false ∧
    (s.update Message.SortByCategory).2 = false := by
  simp [ProductivityApp.update, h]

theorem sortToggle_on_noop_witness :
    ({ exStore with sort_by_category := true } : ProductivityApp).sort_by_category = true ∧
    (({ exStore with sort_by_category := true }).update Message.SortByCategory).1.todos =
      ({ exStore with sort_by_category := true } : ProductivityApp).todos ∧
    (({ exStore with sort_by_category := true }).update Message.SortByCategory).1.sort_by_category = false ∧
    (({ exStore with sort_by_category := true }).update Message.SortByCategory).2 = false :=
  ⟨by decide, sortToggle_on_noop _ (by decide)⟩

/-! ### C3: toggle flips exactly one record -/

/-- C3: for a valid index, `ToggleTodoCompleted idx` flips the `completed`
flag of exactly the record at `idx`, leaves every other position unchanged,
and writes the file; for an out-of-range index the state is unchanged and no
file is written. -/
theorem toggle_spec (s : ProductivityApp) (idx : Nat) :
    (idx < s.todos.length →
      (s.update (Message.ToggleTodoCompleted idx)).2 = true ∧
      (s.update (Message.ToggleTodoCompleted idx)).1.todos[idx]? =
        (s.todos[idx]?).map (fun t => { t with completed := !t.completed }) ∧
      ∀ j, j ≠ idx →
        (s.update (Message.ToggleTodoCompleted idx)).1.todos[j]? = s.todos[j]?) ∧
    (s.todos.length ≤ idx → s.update (Message.ToggleTodoCompleted idx) = (s, false)) := by
  constructor
  · intro hlt
    have hget : s.todos[idx]? = some s.todos[idx] := List.getElem?_eq_getElem hlt
    refine ⟨by simp [ProductivityApp.update, hget], ?_, ?_⟩
    · simp [ProductivityApp.update, hget, List.getElem?_set_self', hlt]
    · intro j hj
      simp [ProductivityApp.update, hget, List.getElem?_set_ne (fun h => hj h.symm)]
  · intro hge
    have hget : s.todos[idx]? = none := by
      simp [List.getElem?_eq_none hge]
    simp [ProductivityApp.update, hget]

theorem toggle_spec_witness :
    (0 < exStore.todos.length ∧
      (exStore.update (Message.ToggleTodoCompleted 0)).2 = true ∧
      (exStore.update (Message.ToggleTodoCompleted 0)).1.todos[0]? =
        (exStore.todos[0]?).map (fun t => { t with completed := !t.completed }) ∧
      ∀ j, j ≠ 0 →
        (exStore.update (Message.ToggleTodoCompleted 0)).1.todos[j]? = exStore.todos[j]?) ∧
    (exStore.todos.length ≤ 5 ∧ exStore.update (Message.ToggleTodoCompleted 5) = (exStore, false)) :=
  ⟨⟨by decide, (toggle_spec exStore 0).1 (by decide)⟩,
    ⟨by decide, (toggle_spec exStore 5).2 (by decide)⟩⟩

/-! ### C7: the filtered view -/

/-- C7: the view's iterator yields, in store order (a sublist of the
enumerated store), exactly the records passing the visibility and category
filters, each paired with its position in the underlying store. -/
theorem filteredView_spec (s : ProductivityApp) :
    List.Sublist s.filteredView s.todos.enum ∧
    ∀ i t, (i, t) ∈ s.filteredView ↔
      (s.todos[i]? = some t ∧ (s.show_completed = true ∨ t.completed = false) ∧
        (s.filter_category = none ∨ s.filter_category = some t.category)) := by
  constructor
  · exact (List.filter_sublist _).trans (List.filter_sublist _)
  · intro i t
    cases hfc : s.filter_category with
    | none =>
      simp [ProductivityApp.filteredView, List.mem_filter,
        List.mk_mem_enum_iff_getElem?, hfc, Bool.or_eq_true, Bool.not_eq_true']
      try tauto
    | some cat =>
      simp only [ProductivityApp.filteredView, List.mem_filter,
        List.mk_mem_enum_iff_getElem?, hfc, Bool.and_eq_true, Bool.or_eq_true,
        Bool.not_eq_true', decide_eq_true_eq]
      constructor
      · rintro ⟨⟨h1, h2⟩, h3⟩
        exact ⟨h1, h2, Or.inr (by rw [h3])⟩
      · rintro ⟨h1, h2, h3 | h3⟩
        · exact absurd h3 (by simp)
        · exact ⟨⟨h1, h2⟩, by injection h3 with h; rw [h]⟩

theorem filteredView_spec_witness :
    ((0, exTodo1) ∈ exStore.filteredView ↔
      (exStore.todos[0]? = some exTodo1 ∧
        (exStore.show_completed = true ∨ exTodo1.completed = false) ∧
        (exStore.filter_category = none ∨
          exStore.filter_category = some exTodo1.category))) ∧
    exStore.filteredView = [(0, exTodo1)] :=
  ⟨(filteredView_spec exStore).2 0 exTodo1, by decide⟩

/-! ### Properties of the lexicographic order -/

theorem strLe_refl (a : List Char) : strLe a a = true := by
  induction a with
  | nil => rfl
  | cons c cs ih => simp [strLe, lt_irrefl, ih]

theorem strLe_total (a b : List Char) : strLe a b = true ∨ strLe b a = true := by
  induction a generalizing b with
  | nil => exact Or.inl rfl
  | cons x as ih =>
    cases b with
    | nil => exact Or.inr rfl
    | cons y bs =>
      rcases lt_trichotomy x y with h | rfl | h
      · exact Or.inl (by simp [strLe, h])
      · rcases ih bs with h' | h'
        · exact Or.inl (by simp [strLe, lt_irrefl, h'])
        · exact Or.inr (by simp [strLe, lt_irrefl, h'])
      · exact Or.inr (by simp [strLe, h])

theorem strLe_trans (a b c : List Char) (hab : strLe a b = true)
    (hbc : strLe b c = true) : strLe a c = true := by
  induction a generalizing b c with
  | nil => rfl
  | cons x as ih =>
    cases b with
    | nil => simp [strLe] at hab
    | cons y bs =>
      cases c with
      | nil => simp [strLe] at hbc
      | cons z cs =>
        rcases lt_trichotomy x y with h1 | rfl | h1
        · rcases lt_trichotomy y z with h2 | rfl | h2
          · simp [strLe, lt_trans h1 h2]
          · simp [strLe, h1]
          · simp [strLe, not_lt_of_gt h2, h2] at hbc
        · rcases lt_trichotomy x z with h2 | rfl | h2
          · simp [strLe, h2]
          · simp [strLe, lt_irrefl] at hab hbc ⊢
            exact ih bs cs hab hbc
          · simp [strLe, not_lt_of_gt h2, h2] at hbc
        · simp [strLe, not_lt_of_gt h1, h1] at hab

theorem strLe_antisymm (a b : List Char) (hab : strLe a b = true)
    (hba : strLe b a = true) : a = b := by
  induction a generalizing b with
  | nil =>
    cases b with
    | nil => rfl
    | cons y bs => simp [strLe] at hba
  | cons x as ih =>
    cases b with
    | nil => simp [strLe] at hab
    | cons y bs =>
      rcases lt_trichotomy x y with h1 | rfl | h1
      · simp [strLe, not_lt_of_gt h1, h1] at hba
      · simp [strLe, lt_irrefl] at hab hba
        exact congrArg (x :: ·) (ih bs hab hba)
      · simp [strLe, not_lt_of_gt h1, h1] at hab

instance : IsTotal (List Char) lexLe := ⟨strLe_total⟩

instance : IsTrans (List Char) lexLe := ⟨strLe_trans⟩

instance : IsTotal TodoItem catLe := ⟨fun a b => strLe_total a.category b.category⟩

instance : IsTrans TodoItem catLe :=
  ⟨fun a b c => strLe_trans a.category b.category c.category⟩

/-! ### Properties of `dedupAdj` (Rust `Vec::dedup`) -/

theorem dedupLoop_sublist {α : Type} [DecidableEq α] (prev : α) (t : List α) :
    List.Sublist (dedupLoop prev t) t := by
  induction t generalizing prev with
  | nil => simp [dedupLoop]
  | cons b t ih =>
    by_cases h : b = prev
    · rw [dedupLoop, if_pos h]
      exact (ih prev).trans (List.sublist_cons_self b t)
    · rw [dedupLoop, if_neg h]
      exact (ih b).cons₂ b

theorem mem_of_mem_dedupLoop {α : Type} [DecidableEq α] {x prev : α} {t : List α}
    (h : x ∈ dedupLoop prev t) : x ∈ t :=
  (dedupLoop_sublist prev t).mem h

theorem mem_dedupLoop_of_mem {α : Type} [DecidableEq α] {x : α} {t : List α}
    (h : x ∈ t) (prev : α) : x = prev ∨ x ∈ dedupLoop prev t := by
  induction t generalizing prev with
  | nil => cases h
  | cons b t ih =>
    by_cases hb : b = prev
    · rw [dedupLoop, if_pos hb]
      rcases List.mem_cons.1 h with rfl | hx
      · exact Or.inl hb
      · exact ih hx prev
    · rw [dedupLoop, if_neg hb]
      rcases List.mem_cons.1 h with rfl | hx
      · exact Or.inr (List.mem_cons_self x _)
      · rcases ih hx b with rfl | hmem
        · exact Or.inr (List.mem_cons_self x _)
        · exact Or.inr (List.mem_cons_of_mem b hmem)

theorem mem_dedupAdj {α : Type} [DecidableEq α] (x : α) (l : List α) :
    x ∈ dedupAdj l ↔ x ∈ l := by
  cases l with
  | nil => simp [dedupAdj]
  | cons a t =>
    rw [dedupAdj]
    constructor
    · intro h
      rcases List.mem_cons.1 h with rfl | hx
      · exact List.mem_cons_self x t
      · exact List.mem_cons_of_mem a (mem_of_mem_dedupLoop hx)
    · intro h
      rcases List.mem_cons.1 h with rfl | hx
      · exact List.mem_cons_self x _
      · rcases mem_dedupLoop_of_mem hx a with rfl | hmem
        · exact List.mem_cons_self x _
        · exact List.mem_cons_of_mem a hmem

theorem dedupAdj_sublist {α : Type} [DecidableEq α] (l : List α) :
    List.Sublist (dedupAdj l) l := by
  cases l with
  | nil => simp [dedupAdj]
  | cons a t =>
    rw [dedupAdj]
    exact (dedupLoop_sublist a t).cons₂ a

theorem dedupLoop_nodup_of_sorted (prev : List Char) (t : List (List Char))
    (h : List.Sorted lexLe (prev :: t)) : (prev :: dedupLoop prev t).Nodup := by
  induction t generalizing prev with
  | nil => simp [dedupLoop]
  | cons b t ih =>
    rw [List.sorted_cons] at h
    by_cases hb : b = prev
    · rw [dedupLoop, if_pos hb]
      refine ih prev (List.sorted_cons.2 ⟨?_, (List.sorted_cons.1 h.2).2⟩)
      intro x hx
      exact h.1 x (List.mem_cons_of_mem b hx)
    · rw [dedupLoop, if_neg hb]
      have hrest : (b :: dedupLoop b t).Nodup := ih b h.2
      refine List.nodup_cons.2 ⟨?_, hrest⟩
      intro hmem
      rcases List.mem_cons.1 hmem with rfl | hx
      · exact hb rfl
      · have hp : prev ∈ t := mem_of_mem_dedupLoop hx
        have h1 : lexLe prev b := h.1 b (List.mem_cons_self b t)
        have h2 : lexLe b prev := (List.sorted_cons.1 h.2).1 prev hp
        exact hb (strLe_antisymm b prev h2 h1)

theorem dedupAdj_nodup_of_sorted (l : List (List Char))
    (h : List.Sorted lexLe l) : (dedupAdj l).Nodup := by
  cases l with
  | nil => simp [dedupAdj]
  | cons a t =>
    rw [dedupAdj]
    exact dedupLoop_nodup_of_sorted a t h

/-! ### C4: distinct categories -/

/-- C4 counterexample: with an empty store and a pending (not yet added)
`category_input` of `"Work"`, `categories` returns `["Work"]`, although no
record of the store has that category — so `categories` does not return
exactly the categories present across the records. -/
theorem categories_counterexample :
    ProductivityApp.categories
        { todo_input := [], category_input := "Work".toList, todos := [],
          show_completed := false, sort_by_category := false, filter_category := none } =
      ["Work".toList] ∧
    List.map (fun t => t.category)
        ({ todo_input := [], category_input := "Work".toList, todos := [],
           show_completed := false, sort_by_category := false,
           filter_category := none } : ProductivityApp).todos = [] := by
  decide

/-- C4 amended: `categories` returns a lexicographically sorted sequence
without duplicates whose members are exactly the categories present across
the store's records, plus the pending `category_input` when its trim is
non-empty (and it is not already among the record categories). -/
theorem categories_amended (s : ProductivityApp) :
    List.Sorted lexLe s.categories ∧ s.categories.Nodup ∧
    ∀ x, x ∈ s.categories ↔
      (x ∈ s.todos.map (fun t => t.category) ∨
        (trim s.category_input ≠ [] ∧ x = s.category_input)) := by
  refine ⟨?_, ?_, ?_⟩
  · exact List.Pairwise.sublist (dedupAdj_sublist _)
      (List.sorted_insertionSort lexLe _)
  · exact dedupAdj_nodup_of_sorted _ (List.sorted_insertionSort lexLe _)
  · intro x
    simp only [ProductivityApp.categories, mem_dedupAdj, List.mem_insertionSort]
    by_cases h1 : trim s.category_input = []
    · simp [h1]
    · have hne : (trim s.category_input).isEmpty = false := by
        cases hcc : trim s.category_input with
        | nil => exact absurd hcc h1
        | cons a l => rfl
      by_cases h2 : s.category_input ∈ s.todos.map fun t => t.category
      · have hc : (s.todos.map fun t => t.category).contains s.category_input = true :=
          List.elem_iff.2 h2
        simp only [hne, hc, Bool.not_false, Bool.not_true, Bool.true_and,
          Bool.false_and, if_false]
        constructor
        · exact fun h => Or.inl h
        · rintro (h | ⟨-, rfl⟩)
          · exact h
          · exact h2
      · have hc : (s.todos.map fun t => t.category).contains s.category_input = false := by
          cases hcc : (s.todos.map fun t => t.category).contains s.category_input
          · rfl
          · exact absurd (List.elem_iff.1 hcc) h2
        simp only [hne, hc, Bool.not_false, Bool.true_and, if_true,
          List.mem_append, List.mem_singleton]
        constructor
        · rintro (h | rfl)
          · exact Or.inl h
          · exact Or.inr ⟨h1, rfl⟩
        · rintro (h | ⟨-, rfl⟩)
          · exact Or.inl h
          · exact Or.inr rfl

theorem categories_amended_witness :
    ("Errands".toList ∈ exStore.categories ↔
      ("Errands".toList ∈ exStore.todos.map (fun t => t.category) ∨
        (trim exStore.category_input ≠ [] ∧ "Errands".toList = exStore.category_input))) ∧
    exStore.categories = ["Errands".toList, "Finance".toList] :=
  ⟨(categories_amended exStore).2.2 _, by decide⟩

/-! ### C9: sorting by category, with stability -/

theorem filter_cat_orderedInsert (c : List Char) (x : TodoItem) (s : List TodoItem) :
    (List.orderedInsert catLe x s).filter (fun t => decide (t.category = c)) =
      if x.category = c then x :: s.filter (fun t => decide (t.category = c))
      else s.filter (fun t => decide (t.category = c)) := by
  induction s with
  | nil => by_cases hx : x.category = c <;> simp [List.orderedInsert, hx]
  | cons y ys ih =>
    by_cases hxy : catLe x y
    · rw [List.orderedInsert, if_pos hxy]
      by_cases hx : x.category = c <;> simp [List.filter_cons, hx]
    · rw [List.orderedInsert, if_neg hxy]
      by_cases hx : x.category = c
      · have hy : y.category ≠ c := by
          intro hyc
          apply hxy
          unfold catLe
          rw [hx, hyc]
          exact strLe_refl c
        simp [List.filter_cons, hx, hy, ih]
      · simp [List.filter_cons, hx, ih]

theorem filter_cat_insertionSort (c : List Char) (l : List TodoItem) :
    (List.insertionSort catLe l).filter (fun t => decide (t.category = c)) =
      l.filter (fun t => decide (t.category = c)) := by
  induction l with
  | nil => rfl
  | cons x xs ih =>
    rw [List.insertionSort, filter_cat_orderedInsert, ih]
    by_cases hx : x.category = c <;> simp [List.filter_cons, hx]

/-- C9: when the sort flag is off (so that triggering the action actually
sorts), the resulting task sequence is sorted by ascending lexicographic
category order, is a permutation of the original records, and the sort is
stable: for every category, the subsequence of records with that category
is exactly the original one (equal categories keep their relative order). -/
theorem sortByCategory_spec (s : ProductivityApp) (h : s.sort_by_category = false) :
    List.Sorted catLe (s.update Message.SortByCategory).1.todos ∧
    List.Perm (s.update Message.SortByCategory).1.todos s.todos ∧
    ∀ c, (s.update Message.SortByCategory).1.todos.filter
        (fun t => decide (t.category = c)) =
      s.todos.filter (fun t => decide (t.category = c)) := by
  have hupd : (s.update Message.SortByCategory).1.todos =
      List.insertionSort catLe s.todos := by
    simp [ProductivityApp.update, h]
  rw [hupd]
  exact ⟨List.sorted_insertionSort catLe s.todos,
    List.perm_insertionSort catLe s.todos,
    fun c => filter_cat_insertionSort c s.todos⟩

def exSortStore : ProductivityApp :=
  { todo_input := [], category_input := [],
    todos := [⟨"t1".toList, false, "B".toList⟩, ⟨"t2".toList, false, "A".toList⟩,
              ⟨"t3".toList, true, "B".toList⟩],
    show_completed := false, sort_by_category := false, filter_category := none }

theorem sortByCategory_spec_witness :
    exSortStore.sort_by_category = false ∧
    List.Sorted catLe (exSortStore.update Message.SortByCategory).1.todos ∧
    List.Perm (exSortStore.update Message.SortByCategory).1.todos exSortStore.todos ∧
    (exSortStore.update Message.SortByCategory).1.todos.filter
        (fun t => decide (t.category = "B".toList)) =
      exSortStore.todos.filter (fun t => decide (t.category = "B".toList)) ∧
    (exSortStore.update Message.SortByCategory).1.todos =
      [⟨"t2".toList, false, "A".toList⟩, ⟨"t1".toList, false, "B".toList⟩,
       ⟨"t3".toList, true, "B".toList⟩] :=
  ⟨rfl, (sortByCategory_spec exSortStore rfl).1,
    (sortByCategory_spec exSortStore rfl).2.1,
    (sortByCategory_spec exSortStore rfl).2.2 _, by decide⟩

/-! ### C5: the non-empty-description invariant -/

theorem update_preserves_desc_nonempty (s : ProductivityApp) (m : Message)
    (h : ∀ t ∈ s.todos, t.description ≠ []) :
    ∀ t ∈ (s.update m).1.todos, t.description ≠ [] := by
  cases m with
  | TodoInputChanged input => exact h
  | CategoryInputChanged input => exact h
  | AddTodo =>
    cases hc : trim s.todo_input with
    | nil => simpa [ProductivityApp.update, hc] using h
    | cons a l =>
      intro t ht
      simp only [ProductivityApp.update, hc, List.isEmpty_cons] at ht
      rcases List.mem_append.1 ht with hmem | hmem
      · exact h t hmem
      · rw [List.mem_singleton.1 hmem]
        simp
  | ToggleTodoCompleted idx =>
    cases hg : s.todos[idx]? with
    | none => simpa [ProductivityApp.update, hg] using h
    | some u =>
      intro t ht
      simp only [ProductivityApp.update, hg] at ht
      rcases List.mem_or_eq_of_mem_set ht with hmem | rfl
      · exact h t hmem
      · exact h u (List.getElem?_mem hg)
  | ToggleShowCompleted => exact h
  | SortByCategory =>
    by_cases hb : s.sort_by_category
    · simpa [ProductivityApp.update, hb] using h
    · intro t ht
      simp only [ProductivityApp.update, hb, Bool.not_false, if_true] at ht
      exact h t ((List.mem_insertionSort catLe).1 ht)
  | FilterCategoryChanged cat => exact h

/-- C5 counterexample: the state reached by an initial load of the existing
file content `",false,Work"` — a record the CSV reader accepts, with an
empty first field — followed by no operations at all stores a record whose
description is empty, so the invariant does not hold of every state
reachable from an arbitrary file. -/
theorem descNonEmpty_counterexample :
    ¬ (∀ t ∈ (runMsgs [] (initState (some (",false,Work".toList)))).todos,
        t.description ≠ []) := by
  decide

/-- C5 amended: every public operation preserves the non-empty-description
invariant, so every state reachable from an initial load whose records all
have non-empty descriptions (in particular a missing file, or a file written
by `save_todos` from such records) satisfies it; the load itself, however,
does not enforce the invariant on the file's records. -/
theorem descNonEmpty_invariant (file : Option (List Char)) (msgs : List Message)
    (h : ∀ t ∈ loadTodos file, t.description ≠ []) :
    ∀ t ∈ (runMsgs msgs (initState file)).todos, t.description ≠ [] := by
  have hgen : ∀ (s : ProductivityApp), (∀ t ∈ s.todos, t.description ≠ []) →
      ∀ t ∈ (runMsgs msgs s).todos, t.description ≠ [] := by
    induction msgs with
    | nil => exact fun s hs => hs
    | cons m ms ih =>
      intro s hs
      exact ih _ (update_preserves_desc_nonempty s m hs)
  exact hgen _ h

theorem descNonEmpty_invariant_witness :
    (∀ t ∈ loadTodos (some (saveTodos [exTodo1])), t.description ≠ []) ∧
    (∀ t ∈ (runMsgs [Message.ToggleTodoCompleted 0, Message.SortByCategory]
        (initState (some (saveTodos [exTodo1])))).todos, t.description ≠ []) :=
  ⟨by decide, descNonEmpty_invariant _ _ (by decide)⟩

/-! ### C8: loading semantics -/

theorem loadLoop_eq_filterMap (exp : Nat) (rs : List (List (List Char))) :
    loadLoop (some exp) rs =
      rs.filterMap (fun r => if r.length = exp then recordToTodo r else none) := by
  induction rs with
  | nil => rfl
  | cons r rs ih =>
    simp only [loadLoop, Option.getD_some]
    by_cases hl : r.length = exp
    · rw [if_pos hl]
      cases hr : recordToTodo r with
      | some t => simp [List.filterMap_cons, hl, hr, ih]
      | none => simp [List.filterMap_cons, hl, hr, ih]
    · simp [List.filterMap_cons, hl, ih]

/-- C8 counterexample: for the existing file content `"a,b\nx,false,Work\n"`
the first record (`a`,`b`) is malformed (two fields) while the second record
(`x`,`false`,`Work`) is a well-formed three-field record that deserializes;
yet `load` returns the empty sequence — the reader's non-flexible length
check is keyed to the first record's two fields and so also rejects the
well-formed second record, instead of skipping only the malformed record
and continuing with the rest. -/
theorem load_counterexample :
    parseRecords ("a,b\nx,false,Work\n".toList) =
      [["a".toList, "b".toList], ["x".toList, "false".toList, "Work".toList]] ∧
    recordToTodo ["x".toList, "false".toList, "Work".toList] =
      some ⟨"x".toList, false, "Work".toList⟩ ∧
    loadTodos (some ("a,b\nx,false,Work\n".toList)) = [] := by
  decide

/-- C8 amended: `load` never raises: a missing file yields the empty
sequence, and for an existing file each parsed record is kept exactly when
its field count equals the first record's field count and it deserializes
(three fields, boolean second field); all other records are skipped
individually and parsing continues — so a malformed first record can also
cause later well-formed records to be skipped. -/
theorem load_spec :
    loadTodos none = [] ∧
    ∀ content first rest, parseRecords content = first :: rest →
      loadTodos (some content) =
        (first :: rest).filterMap
          (fun r => if r.length = first.length then recordToTodo r else none) := by
  constructor
  · rfl
  · intro content first rest hp
    simp only [loadTodos]
    rw [hp]
    simp only [loadLoop, Option.getD_none, if_pos rfl]
    cases hr : recordToTodo first with
    | some t =>
      simp [List.filterMap_cons, hr, loadLoop_eq_filterMap]
    | none =>
      simp [List.filterMap_cons, hr, loadLoop_eq_filterMap]

theorem load_spec_witness :
    parseRecords ("a,true,X\nb,bad,Y\nc,false,Z".toList) =
      [["a".toList, "true".toList, "X".toList],
       ["b".toList, "bad".toList, "Y".toList],
       ["c".toList, "false".toList, "Z".toList]] ∧
    loadTodos (some ("a,true,X\nb,bad,Y\nc,false,Z".toList)) =
      ([["a".toList, "true".toList, "X".toList],
        ["b".toList, "bad".toList, "Y".toList],
        ["c".toList, "false".toList, "Z".toList]].filterMap
          (fun r => if r.length = (["a".toList, "true".toList, "X".toList] : List (List Char)).length
            then recordToTodo r else none)) ∧
    loadTodos (some ("a,true,X\nb,bad,Y\nc,false,Z".toList)) =
      [⟨"a".toList, true, "X".toList⟩, ⟨"c".toList, false, "Z".toList⟩] :=
  ⟨by decide, load_spec.2 _ _ _ (by decide), by decide⟩

/-! ### C1: single-step facts about the reader automaton -/

theorem csvRun_startField_quote (cs f r) :
    csvRun ('"' :: cs) .startField f r = csvRun cs .inQuoted f r := by
  simp [csvRun]

theorem csvRun_startField_comma (cs f r) :
    csvRun (',' :: cs) .startField f r = csvRun cs .startField [] (r ++ [f]) := by
  simp [csvRun]

theorem csvRun_startField_newline (cs f r) :
    csvRun ('\n' :: cs) .startField f r = (r ++ [f]) :: csvRun cs .startRecord [] [] := by
  simp [csvRun]

theorem csvRun_startField_other (c cs f r) (h1 : c ≠ '\n') (h2 : c ≠ '\r')
    (h3 : c ≠ '"') (h4 : c ≠ ',') :
    csvRun (c :: cs) .startField f r = csvRun cs .inField (f ++ [c]) r := by
  simp [csvRun, h1, h2, h3, h4]

theorem csvRun_inField_comma (cs f r) :
    csvRun (',' :: cs) .inField f r = csvRun cs .startField [] (r ++ [f]) := by
  simp [csvRun]

theorem csvRun_inField_newline (cs f r) :
    csvRun ('\n' :: cs) .inField f r = (r ++ [f]) :: csvRun cs .startRecord [] [] := by
  simp [csvRun]

theorem csvRun_inField_other (c cs f r) (h1 : c ≠ '\n') (h2 : c ≠ '\r') (h3 : c ≠ ',') :
    csvRun (c :: cs) .inField f r = csvRun cs .inField (f ++ [c]) r := by
  simp [csvRun, h1, h2, h3]

theorem csvRun_inQuoted_quote (cs f r) :
    csvRun ('"' :: cs) .inQuoted f r = csvRun cs .quoteInQuoted f r := by
  simp [csvRun]

theorem csvRun_inQuoted_other (c cs f r) (h : c ≠ '"') :
    csvRun (c :: cs) .inQuoted f r = csvRun cs .inQuoted (f ++ [c]) r := by
  simp [csvRun, h]

theorem csvRun_quoteInQuoted_quote (cs f r) :
    csvRun ('"' :: cs) .quoteInQuoted f r = csvRun cs .inQuoted (f ++ ['"']) r := by
  simp [csvRun]

theorem csvRun_quoteInQuoted_comma (cs f r) :
    csvRun (',' :: cs) .quoteInQuoted f r = csvRun cs .startField [] (r ++ [f]) := by
  simp [csvRun]

theorem csvRun_quoteInQuoted_newline (cs f r) :
    csvRun ('\n' :: cs) .quoteInQuoted f r =
      (r ++ [f]) :: csvRun cs .startRecord [] [] := by
  simp [csvRun]

theorem csvRun_startRecord_quote (cs) :
    csvRun ('"' :: cs) .startRecord [] [] = csvRun cs .inQuoted [] [] := by
  simp [csvRun]

theorem csvRun_startRecord_comma (cs) :
    csvRun (',' :: cs) .startRecord [] [] = csvRun cs .startField [] [[]] := by
  simp [csvRun]

theorem csvRun_startRecord_other (c cs) (h1 : c ≠ '\n') (h2 : c ≠ '\r')
    (h3 : c ≠ '"') (h4 : c ≠ ',') :
    csvRun (c :: cs) .startRecord [] [] = csvRun cs .inField [c] [] := by
  simp [csvRun, h1, h2, h3, h4]

/-! ### C1: traversal of rendered fields -/

theorem not_special_of_needsQuoting_false {f : List Char} (h : needsQuoting f = false)
    {c : Char} (hc : c ∈ f) : c ≠ ',' ∧ c ≠ '"' ∧ c ≠ '\n' ∧ c ≠ '\r' := by
  simp only [needsQuoting, List.any_eq_false] at h
  have hcc := h c hc
  simp only [Bool.or_eq_true, beq_iff_eq, not_or] at hcc
  exact ⟨hcc.1.1.1, hcc.1.1.2, hcc.1.2, hcc.2⟩

theorem csvRun_unquoted (f : List Char)
    (hf : ∀ c ∈ f, c ≠ ',' ∧ c ≠ '\n' ∧ c ≠ '\r') :
    ∀ (rest a : List Char) (r : List (List Char)),
      csvRun (f ++ rest) .inField a r = csvRun rest .inField (a ++ f) r := by
  induction f with
  | nil => intro rest a r; simp
  | cons c f ih =>
    intro rest a r
    obtain ⟨h1, h2, h3⟩ := hf c (List.mem_cons_self c f)
    rw [List.cons_append, csvRun_inField_other c _ a r h2 h3 h1,
      ih (fun x hx => hf x (List.mem_cons_of_mem c hx)) rest (a ++ [c]) r]
    simp

theorem csvRun_quoted_content (f : List Char) :
    ∀ (rest a : List Char) (r : List (List Char)),
      csvRun (escapeQuotes f ++ rest) .inQuoted a r =
        csvRun rest .inQuoted (a ++ f) r := by
  induction f with
  | nil => intro rest a r; simp [escapeQuotes]
  | cons c f ih =>
    intro rest a r
    by_cases hc : c = '"'
    · subst hc
      rw [show escapeQuotes ('"' :: f) = '"' :: '"' :: escapeQuotes f from by
          simp [escapeQuotes]]
      rw [List.cons_append, List.cons_append, csvRun_inQuoted_quote,
        csvRun_quoteInQuoted_quote, ih rest (a ++ ['"']) r]
      simp
    · rw [show escapeQuotes (c :: f) = c :: escapeQuotes f from by
          simp [escapeQuotes, hc]]
      rw [List.cons_append, csvRun_inQuoted_other c _ a r hc, ih rest (a ++ [c]) r]
      simp

theorem csvRun_renderField_comma (fld : List Char) (rest : List Char)
    (r : List (List Char)) :
    csvRun (renderField fld ++ ',' :: rest) .startField [] r =
      csvRun rest .startField [] (r ++ [fld]) := by
  cases hq : needsQuoting fld with
  | true =>
    rw [show renderField fld = '"' :: (escapeQuotes fld ++ ['"']) from by
        simp [renderField, hq]]
    rw [List.cons_append, csvRun_startField_quote, List.append_assoc,
      List.singleton_append, csvRun_quoted_content fld ('"' :: ',' :: rest) [] r,
      List.nil_append, csvRun_inQuoted_quote, csvRun_quoteInQuoted_comma]
  | false =>
    rw [show renderField fld = fld from by simp [renderField, hq]]
    cases fld with
    | nil =>
      rw [List.nil_append, csvRun_startField_comma]
    | cons c f =>
      obtain ⟨p1, p2, p3, p4⟩ := not_special_of_needsQuoting_false hq
        (List.mem_cons_self c f)
      rw [List.cons_append, csvRun_startField_other c _ [] r p3 p4 p2 p1,
        csvRun_unquoted f
          (fun x hx =>
            (not_special_of_needsQuoting_false hq (List.mem_cons_of_mem c hx)).imp
              id (fun q => ⟨q.2.1, q.2.2⟩))
          (',' :: rest) ([] ++ [c]) r,
        csvRun_inField_comma]
      simp

theorem csvRun_renderField_newline (fld : List Char) (rest : List Char)
    (r : List (List Char)) :
    csvRun (renderField fld ++ '\n' :: rest) .startField [] r =
      (r ++ [fld]) :: csvRun rest .startRecord [] [] := by
  cases hq : needsQuoting fld with
  | true =>
    rw [show renderField fld = '"' :: (escapeQuotes fld ++ ['"']) from by
        simp [renderField, hq]]
    rw [List.cons_append, csvRun_startField_quote, List.append_assoc,
      List.singleton_append, csvRun_quoted_content fld ('"' :: '\n' :: rest) [] r,
      List.nil_append, csvRun_inQuoted_quote, csvRun_quoteInQuoted_newline]
  | false =>
    rw [show renderField fld = fld from by simp [renderField, hq]]
    cases fld with
    | nil =>
      rw [List.nil_append, csvRun_startField_newline]
    | cons c f =>
      obtain ⟨p1, p2, p3, p4⟩ := not_special_of_needsQuoting_false hq
        (List.mem_cons_self c f)
      rw [List.cons_append, csvRun_startField_other c _ [] r p3 p4 p2 p1,
        csvRun_unquoted f
          (fun x hx =>
            (not_special_of_needsQuoting_false hq (List.mem_cons_of_mem c hx)).imp
              id (fun q => ⟨q.2.1, q.2.2⟩))
          ('\n' :: rest) ([] ++ [c]) r,
        csvRun_inField_newline]
      simp

theorem csvRun_startRecord_renderField (fld : List Char) (rest : List Char) :
    csvRun (renderField fld ++ ',' :: rest) .startRecord [] [] =
      csvRun (renderField fld ++ ',' :: rest) .startField [] [] := by
  cases hq : needsQuoting fld with
  | true =>
    rw [show renderField fld = '"' :: (escapeQuotes fld ++ ['"']) from by
        simp [renderField, hq]]
    rw [List.cons_append, csvRun_startField_quote, csvRun_startRecord_quote]
  | false =>
    rw [show renderField fld = fld from by simp [renderField, hq]]
    cases fld with
    | nil =>
      rw [List.nil_append, csvRun_startField_comma, csvRun_startRecord_comma]
      simp
    | cons c f =>
      obtain ⟨p1, p2, p3, p4⟩ := not_special_of_needsQuoting_false hq
        (List.mem_cons_self c f)
      rw [List.cons_append, csvRun_startField_other c _ [] [] p3 p4 p2 p1,
        csvRun_startRecord_other c _ p3 p4 p2 p1]
      simp

/-! ### C1: the round-trip law -/

theorem csvRun_renderRecord (t : TodoItem) (rest : List Char) :
    csvRun (renderRecord t ++ rest) .startRecord [] [] =
      [t.description, boolField t.completed, t.category] ::
        csvRun rest .startRecord [] [] := by
  have hshape : renderRecord t ++ rest =
      renderField t.description ++ ',' ::
        (renderField (boolField t.completed) ++ ',' ::
          (renderField t.category ++ '\n' :: rest)) := by
    simp [renderRecord, List.append_assoc]
  rw [hshape, csvRun_startRecord_renderField, csvRun_renderField_comma,
    csvRun_renderField_comma, csvRun_renderField_newline]
  simp

theorem parseRecords_saveTodos (todos : List TodoItem) :
    parseRecords (saveTodos todos) =
      todos.map (fun t => [t.description, boolField t.completed, t.category]) := by
  induction todos with
  | nil => rfl
  | cons t ts ih =>
    have hsplit : saveTodos (t :: ts) = renderRecord t ++ saveTodos ts := by
      simp [saveTodos]
    simp only [parseRecords] at ih ⊢
    rw [hsplit, csvRun_renderRecord, ih, List.map_cons]

theorem recordToTodo_roundtrip (t : TodoItem) :
    recordToTodo [t.description, boolField t.completed, t.category] = some t := by
  obtain ⟨d, b, cat⟩ := t
  cases b
  · show recordToTodo [d, boolField false, cat] = some ⟨d, false, cat⟩
    rw [show boolField false = "false".toList from rfl]
    simp [recordToTodo]
  · show recordToTodo [d, boolField true, cat] = some ⟨d, true, cat⟩
    rw [show boolField true = "true".toList from rfl]
    simp [recordToTodo]

theorem loadLoop_three (todos : List TodoItem) :
    loadLoop (some 3)
        (todos.map fun t => [t.description, boolField t.completed, t.category]) =
      todos := by
  induction todos with
  | nil => rfl
  | cons t ts ih =>
    simp only [List.map_cons, loadLoop, Option.getD_some, List.length_cons,
      List.length_nil, if_true]
    rw [recordToTodo_roundtrip]
    exact congrArg (t :: ·) ih

/-- C1: the persistence round-trip law: for every sequence of well-formed
records (trimmed non-empty description), loading the exact content written
by `save_todos` yields the same sequence — including when descriptions or
categories contain the delimiter, the quote character, or line breaks. -/
theorem save_load_roundtrip (todos : List TodoItem)
    (h : ∀ t ∈ todos, WellFormed t) :
    loadTodos (some (saveTodos todos)) = todos := by
  simp only [loadTodos]
  rw [parseRecords_saveTodos]
  cases todos with
  | nil => rfl
  | cons t ts =>
    simp only [List.map_cons, loadLoop, Option.getD_none, List.length_cons,
      List.length_nil, if_true]
    rw [recordToTodo_roundtrip]
    exact congrArg (t :: ·) (loadLoop_three ts)

theorem save_load_roundtrip_witness :
    (∀ t ∈ [(⟨"Call \"Bob\"".toList, false, "Personal".toList⟩ : TodoItem)],
      WellFormed t) ∧
    loadTodos (some (saveTodos
        [(⟨"Call \"Bob\"".toList, false, "Personal".toList⟩ : TodoItem)])) =
      [(⟨"Call \"Bob\"".toList, false, "Personal".toList⟩ : TodoItem)] :=
  ⟨by decide, save_load_roundtrip _ (by decide)⟩
